import Mathlib

/-!  Shallow embedding of the order-book core (`src/core/mod.rs`) of the
keyrock repository.  Validated prices and amounts are NaN-free floats with a
total order, so the order-book layer embeds them as rationals; a separate
model of the f64 classification (`F64` below) covers the validating
constructors `Price::new` and `Amount::new`, which are the only places where
the floating-point taxonomy (NaN, infinities, zeros, subnormals, normals) is
observable.  -/

/-- Model of source `struct Order(Price, Amount)`: the pair of a validated
price and a validated amount, embedded as rationals. -/
structure Order where
  price : ℚ
  amount : ℚ
deriving DecidableEq, Repr

/-- Comparison of two rationals; mirrors `partial_cmp` followed by `unwrap`
on floats for which the comparison is total (`Ord for Price/Amount`). -/
def pcmp (a b : ℚ) : Ordering :=
  if a < b then Ordering.lt else if a = b then Ordering.eq else Ordering.gt

/-- Source `Order::is_empty`: the amount compares equal to `0.0`. -/
def Order.isEmpty (o : Order) : Bool := o.amount == 0

/-- Source `Order::empty`: same price, default (zero) amount. -/
def Order.empty (o : Order) : Order := ⟨o.price, 0⟩

/-- Source `order_comparator::<QUOTE>`: `ASK` (`QUOTE = false`) compares
prices ascending, `BID` (`QUOTE = true`) descending. -/
def orderComparator (Q : Bool) (l r : Order) : Ordering :=
  if Q then pcmp r.price l.price else pcmp l.price r.price

/-- Inner loop of `Merger::next` while the book cursor sits on `b` and `k`
merges the remaining book entries: diff heads that strictly precede `b` are
emitted (`Ordering::Greater` arm), an equal-priced diff head supersedes `b`
(`Ordering::Equal` arm, both cursors advance), and otherwise `b` is emitted
(`Ordering::Less` arm); with an exhausted diff the book side drains. -/
def mergeCons (Q : Bool) (b : Order) (k : List Order → List Order) :
    List Order → List Order
  | [] => b :: k []
  | d :: ds =>
    match orderComparator Q b d with
    | Ordering.lt => b :: k (d :: ds)
    | Ordering.eq => d :: k ds
    | Ordering.gt => d :: mergeCons Q b k ds

/-- Source `Merger::next` collected into a list: two-way merge of book and
diff, both side-sorted; on equal prices the diff entry supersedes the book
entry and both cursors advance.  The iterator is rendered as structural
recursion on the book with `mergeCons` as the inner diff loop; the
characterising step equations (`merge_nil_left`, `merge_nil_right`,
`merge_cons_lt`, `merge_cons_eq`, `merge_cons_gt` below) are exactly the
five branches of `Merger::next`. -/
def merge (Q : Bool) (book : List Order) : List Order → List Order :=
  match book with
  | [] => fun diff => diff
  | b :: bs => mergeCons Q b (merge Q bs)

/-- Induction principle following the five branches of `Merger::next`. -/
theorem mergeInduction (Q : Bool) (motive : List Order → List Order → Prop)
    (case1 : ∀ book, motive book [])
    (case2 : ∀ diff, (diff = [] → False) → motive [] diff)
    (case3 : ∀ b bs d ds, orderComparator Q b d = Ordering.lt →
      motive bs (d :: ds) → motive (b :: bs) (d :: ds))
    (case4 : ∀ b bs d ds, orderComparator Q b d = Ordering.eq →
      motive bs ds → motive (b :: bs) (d :: ds))
    (case5 : ∀ b bs d ds, orderComparator Q b d = Ordering.gt →
      motive (b :: bs) ds → motive (b :: bs) (d :: ds)) :
    ∀ book diff, motive book diff := by
  intro book
  induction book with
  | nil =>
    intro diff
    cases diff with
    | nil => exact case1 []
    | cons d ds => exact case2 (d :: ds) (fun h => List.noConfusion h)
  | cons b bs ihb =>
    intro diff
    induction diff with
    | nil => exact case1 (b :: bs)
    | cons d ds ihd =>
      rcases hc : orderComparator Q b d with _ | _ | _
      · exact case3 b bs d ds hc (ihb (d :: ds))
      · exact case4 b bs d ds hc (ihb ds)
      · exact case5 b bs d ds hc ihd

/-- Source `OrderBook::update`: merge book and diff, drop empty orders, cap
the result at `COUNT` levels. -/
def OrderBook.update (Q : Bool) (COUNT : ℕ) (book diff : List Order) : List Order :=
  ((merge Q book diff).filter (fun o => !o.isEmpty)).take COUNT

/-- Strict precedence under the side order: `l` ranks strictly better
than `r`. -/
def OrderLT (Q : Bool) (l r : Order) : Prop := orderComparator Q l r = Ordering.lt

/-- Sorted (non-strictly) by the side order, as `is_sorted_by` checks with
`order_partial_comparator`. -/
def SortedSide (Q : Bool) (l : List Order) : Prop :=
  l.Pairwise (fun a b => orderComparator Q a b ≠ Ordering.gt)

/-- Pairwise distinct prices. -/
def DistinctPrices (l : List Order) : Prop :=
  l.Pairwise (fun a b => a.price ≠ b.price)

/-- Invariant of `OrderBookDiff`: properly sorted vector of unique, possibly
empty orders; sortedness plus distinctness is strict sortedness by the side
comparator. -/
def ValidDiff (Q : Bool) (l : List Order) : Prop := l.Pairwise (OrderLT Q)

/-- Invariant of `OrderBook`: a valid diff with no empty order and at most
`COUNT` levels. -/
def ValidBook (Q : Bool) (COUNT : ℕ) (l : List Order) : Prop :=
  ValidDiff Q l ∧ (∀ o ∈ l, o.isEmpty = false) ∧ l.length ≤ COUNT

instance (Q : Bool) : DecidableRel (OrderLT Q) :=
  fun a b => inferInstanceAs (Decidable (_ = _))

instance (Q : Bool) (l : List Order) : Decidable (ValidDiff Q l) :=
  inferInstanceAs (Decidable (List.Pairwise _ _))

instance (Q : Bool) (l : List Order) : Decidable (SortedSide Q l) :=
  inferInstanceAs (Decidable (List.Pairwise _ _))

instance (l : List Order) : Decidable (DistinctPrices l) :=
  inferInstanceAs (Decidable (List.Pairwise _ _))

instance (Q : Bool) (COUNT : ℕ) (l : List Order) : Decidable (ValidBook Q COUNT l) :=
  inferInstanceAs (Decidable (_ ∧ _ ∧ _))

theorem pcmp_eq_lt {a b : ℚ} : pcmp a b = Ordering.lt ↔ a < b := by
  rcases lt_trichotomy a b with h | h | h
  · simp [pcmp, h]
  · simp [pcmp, h, lt_irrefl]
  · simp [pcmp, not_lt_of_gt h, h.ne']

theorem pcmp_eq_eq {a b : ℚ} : pcmp a b = Ordering.eq ↔ a = b := by
  rcases lt_trichotomy a b with h | h | h
  · simp [pcmp, h, h.ne]
  · simp [pcmp, h, lt_irrefl]
  · simp [pcmp, not_lt_of_gt h, h.ne']

theorem pcmp_eq_gt {a b : ℚ} : pcmp a b = Ordering.gt ↔ b < a := by
  rcases lt_trichotomy a b with h | h | h
  · simp [pcmp, h, not_lt_of_gt h, h.ne]
  · simp [pcmp, h, lt_irrefl]
  · simp [pcmp, not_lt_of_gt h, h.ne', h]

theorem orderComparator_false (l r : Order) :
    orderComparator false l r = pcmp l.price r.price := rfl

theorem orderComparator_true (l r : Order) :
    orderComparator true l r = pcmp r.price l.price := rfl

theorem orderComparator_eq_eq {Q : Bool} {l r : Order} :
    orderComparator Q l r = Ordering.eq ↔ l.price = r.price := by
  cases Q
  · rw [orderComparator_false, pcmp_eq_eq]
  · rw [orderComparator_true, pcmp_eq_eq]; exact eq_comm

theorem orderComparator_lt_iff_gt {Q : Bool} {l r : Order} :
    orderComparator Q l r = Ordering.lt ↔ orderComparator Q r l = Ordering.gt := by
  cases Q
  · rw [orderComparator_false, orderComparator_false, pcmp_eq_lt, pcmp_eq_gt]
  · rw [orderComparator_true, orderComparator_true, pcmp_eq_lt, pcmp_eq_gt]

theorem orderLT_trans {Q : Bool} {a b c : Order} :
    OrderLT Q a b → OrderLT Q b c → OrderLT Q a c := by
  unfold OrderLT
  cases Q
  · rw [orderComparator_false, orderComparator_false, orderComparator_false,
      pcmp_eq_lt, pcmp_eq_lt, pcmp_eq_lt]
    exact lt_trans
  · rw [orderComparator_true, orderComparator_true, orderComparator_true,
      pcmp_eq_lt, pcmp_eq_lt, pcmp_eq_lt]
    exact fun h1 h2 => lt_trans h2 h1

theorem orderLT_price_ne {Q : Bool} {a b : Order} (h : OrderLT Q a b) :
    a.price ≠ b.price := by
  unfold OrderLT at h
  cases Q
  · rw [orderComparator_false, pcmp_eq_lt] at h
    exact ne_of_lt h
  · rw [orderComparator_true, pcmp_eq_lt] at h
    exact ne_of_gt h

theorem orderLT_asymm {Q : Bool} {a b : Order} (h : OrderLT Q a b) : ¬ OrderLT Q b a := by
  unfold OrderLT at *
  cases Q
  · rw [orderComparator_false, pcmp_eq_lt] at *
    exact fun hc => lt_irrefl _ (lt_trans h hc)
  · rw [orderComparator_true, pcmp_eq_lt] at *
    exact fun hc => lt_irrefl _ (lt_trans h hc)

theorem orderLT_of_not_gt_of_price_ne {Q : Bool} {a b : Order}
    (h1 : orderComparator Q a b ≠ Ordering.gt) (h2 : a.price ≠ b.price) : OrderLT Q a b := by
  rcases hc : orderComparator Q a b with _ | _ | _
  · exact hc
  · exact absurd (orderComparator_eq_eq.mp hc) h2
  · exact absurd hc h1

theorem orderLT_total {Q : Bool} {a b : Order} (h : a.price ≠ b.price) :
    OrderLT Q a b ∨ OrderLT Q b a := by
  rcases hc : orderComparator Q a b with _ | _ | _
  · exact Or.inl hc
  · exact absurd (orderComparator_eq_eq.mp hc) h
  · exact Or.inr (orderComparator_lt_iff_gt.mpr hc)

theorem orderLT_price_congr {Q : Bool} {a a' x : Order} (h : a.price = a'.price) :
    OrderLT Q a x → OrderLT Q a' x := by
  unfold OrderLT
  cases Q
  · rw [orderComparator_false, orderComparator_false, h]
    exact id
  · rw [orderComparator_true, orderComparator_true, h]
    exact id

theorem merge_nil_right {Q : Bool} (b : List Order) : merge Q b [] = b := by
  induction b with
  | nil => rfl
  | cons b bs ih => simp [merge, mergeCons, ih]

theorem merge_nil_left {Q : Bool} (d : List Order) : merge Q [] d = d := rfl

theorem merge_cons_lt {Q : Bool} {b d : Order} {bs ds : List Order}
    (h : orderComparator Q b d = Ordering.lt) :
    merge Q (b :: bs) (d :: ds) = b :: merge Q bs (d :: ds) := by
  simp [merge, mergeCons, h]

theorem merge_cons_eq {Q : Bool} {b d : Order} {bs ds : List Order}
    (h : orderComparator Q b d = Ordering.eq) :
    merge Q (b :: bs) (d :: ds) = d :: merge Q bs ds := by
  simp [merge, mergeCons, h]

theorem merge_cons_gt {Q : Bool} {b d : Order} {bs ds : List Order}
    (h : orderComparator Q b d = Ordering.gt) :
    merge Q (b :: bs) (d :: ds) = d :: merge Q (b :: bs) ds := by
  simp [merge, mergeCons, h]

theorem mem_merge {Q : Bool} {x : Order} :
    ∀ {b d : List Order}, x ∈ merge Q b d → x ∈ b ∨ x ∈ d := by
  intro b d
  induction b, d using mergeInduction Q with
  | case1 book =>
    rw [merge_nil_right]; exact Or.inl
  | case2 diff _ =>
    rw [merge_nil_left]; exact Or.inr
  | case3 b bs d ds hcmp ih =>
    rw [merge_cons_lt hcmp]
    intro h
    rcases List.mem_cons.mp h with rfl | h
    · exact Or.inl (List.mem_cons_self _ _)
    · rcases ih h with h | h
      · exact Or.inl (List.mem_cons_of_mem _ h)
      · exact Or.inr h
  | case4 b bs d ds hcmp ih =>
    rw [merge_cons_eq hcmp]
    intro h
    rcases List.mem_cons.mp h with rfl | h
    · exact Or.inr (List.mem_cons_self _ _)
    · rcases ih h with h | h
      · exact Or.inl (List.mem_cons_of_mem _ h)
      · exact Or.inr (List.mem_cons_of_mem _ h)
  | case5 b bs d ds hcmp ih =>
    rw [merge_cons_gt hcmp]
    intro h
    rcases List.mem_cons.mp h with rfl | h
    · exact Or.inr (List.mem_cons_self _ _)
    · rcases ih h with h | h
      · exact Or.inl h
      · exact Or.inr (List.mem_cons_of_mem _ h)

theorem merge_pairwise {Q : Bool} :
    ∀ {b d : List Order}, ValidDiff Q b → ValidDiff Q d → ValidDiff Q (merge Q b d) := by
  intro b d
  induction b, d using mergeInduction Q with
  | case1 book =>
    intro hb _; rwa [merge_nil_right]
  | case2 diff _ =>
    intro _ hd; rwa [merge_nil_left]
  | case3 b bs d ds hcmp ih =>
    intro hb hd
    rw [merge_cons_lt hcmp]
    rcases List.pairwise_cons.mp hb with ⟨hb1, hb2⟩
    refine List.pairwise_cons.mpr ⟨?_, ih hb2 hd⟩
    intro x hx
    rcases mem_merge hx with hxb | hxd
    · exact hb1 x hxb
    · rcases List.mem_cons.mp hxd with rfl | hxds
      · exact hcmp
      · exact orderLT_trans hcmp ((List.pairwise_cons.mp hd).1 x hxds)
  | case4 b bs d ds hcmp ih =>
    intro hb hd
    rw [merge_cons_eq hcmp]
    rcases List.pairwise_cons.mp hb with ⟨hb1, hb2⟩
    rcases List.pairwise_cons.mp hd with ⟨hd1, hd2⟩
    refine List.pairwise_cons.mpr ⟨?_, ih hb2 hd2⟩
    intro x hx
    rcases mem_merge hx with hxb | hxd
    · exact orderLT_price_congr (orderComparator_eq_eq.mp hcmp) (hb1 x hxb)
    · exact hd1 x hxd
  | case5 b bs d ds hcmp ih =>
    intro hb hd
    have hdb : OrderLT Q d b := orderComparator_lt_iff_gt.mpr hcmp
    rw [merge_cons_gt hcmp]
    rcases List.pairwise_cons.mp hd with ⟨hd1, hd2⟩
    refine List.pairwise_cons.mpr ⟨?_, ih hb hd2⟩
    intro x hx
    rcases mem_merge hx with hxb | hxd
    · rcases List.mem_cons.mp hxb with rfl | hxbs
      · exact hdb
      · exact orderLT_trans hdb ((List.pairwise_cons.mp hb).1 x hxbs)
    · exact hd1 x hxd

theorem validDiff_filter {Q : Bool} {l : List Order} (p : Order → Bool)
    (h : ValidDiff Q l) : ValidDiff Q (l.filter p) :=
  List.Pairwise.filter p h

theorem validDiff_take {Q : Bool} {l : List Order} (n : ℕ)
    (h : ValidDiff Q l) : ValidDiff Q (l.take n) :=
  List.Pairwise.sublist (List.take_sublist n l) h

/-- C1: for every valid book `b` of `Book<Side,N>` and valid diff `d` of
`Diff<Side>`, `b.update(d)` satisfies every Book invariant: sorted according
to the side (ascending prices for Ask, descending for Bid), pairwise
distinct prices, no empty order, and at most `N` levels. -/
theorem update_satisfies_book_invariants (Q : Bool) (N : ℕ) (b d : List Order)
    (hb : ValidBook Q N b) (hd : ValidDiff Q d) :
    ValidBook Q N (OrderBook.update Q N b d) ∧
      SortedSide Q (OrderBook.update Q N b d) ∧
      DistinctPrices (OrderBook.update Q N b d) ∧
      (∀ o ∈ OrderBook.update Q N b d, o.isEmpty = false) ∧
      (OrderBook.update Q N b d).length ≤ N := by
  have hmerge : ValidDiff Q (merge Q b d) := merge_pairwise hb.1 hd
  have hvd : ValidDiff Q (OrderBook.update Q N b d) :=
    validDiff_take N (validDiff_filter _ hmerge)
  have hne : ∀ o ∈ OrderBook.update Q N b d, o.isEmpty = false := by
    intro o ho
    have ho2 := (List.take_sublist _ _).subset ho
    have := (List.mem_filter.mp ho2).2
    simpa using this
  have hlen : (OrderBook.update Q N b d).length ≤ N := by
    unfold OrderBook.update
    exact List.length_take_le _ _
  refine ⟨⟨hvd, hne, hlen⟩, ?_, ?_, hne, hlen⟩
  · exact hvd.imp (fun h => by rw [h]; exact fun hc => Ordering.noConfusion hc)
  · exact hvd.imp orderLT_price_ne

/-- Witness for C1 at a concrete valid ask book and diff. -/
theorem update_satisfies_book_invariants_witness :
    ValidBook false 10 [⟨1, 2⟩, ⟨3, 1⟩] ∧ ValidDiff false [⟨2, 5⟩, ⟨3, 0⟩] ∧
      ValidBook false 10 (OrderBook.update false 10 [⟨1, 2⟩, ⟨3, 1⟩] [⟨2, 5⟩, ⟨3, 0⟩]) :=
  ⟨by decide, by decide,
    (update_satisfies_book_invariants false 10 [⟨1, 2⟩, ⟨3, 1⟩] [⟨2, 5⟩, ⟨3, 0⟩]
      (by decide) (by decide)).1⟩

theorem orderComparator_price_eq {Q : Bool} {a a' b b' : Order}
    (ha : a.price = a'.price) (hb : b.price = b'.price) :
    orderComparator Q a b = orderComparator Q a' b' := by
  unfold orderComparator
  rw [ha, hb]

theorem mem_merge_iff {Q : Bool} :
    ∀ {b d : List Order}, ValidDiff Q b → ValidDiff Q d → ∀ {x : Order},
      (x ∈ merge Q b d ↔ x ∈ d ∨ (x ∈ b ∧ ∀ y ∈ d, y.price ≠ x.price)) := by
  intro b d
  induction b, d using mergeInduction Q with
  | case1 book =>
    intro _ _ x
    rw [merge_nil_right]
    simp
  | case2 diff _ =>
    intro _ _ x
    rw [merge_nil_left]
    simp
  | case3 b bs d ds hcmp ih =>
    intro hb hd x
    rcases List.pairwise_cons.mp hb with ⟨hb1, hb2⟩
    have hd1 := (List.pairwise_cons.mp hd).1
    rw [merge_cons_lt hcmp, List.mem_cons, ih hb2 hd]
    constructor
    · rintro (rfl | h | ⟨hxbs, hfresh⟩)
      · refine Or.inr ⟨List.mem_cons_self _ _, ?_⟩
        intro y hy
        rcases List.mem_cons.mp hy with rfl | hyds
        · exact (orderLT_price_ne hcmp).symm
        · exact (orderLT_price_ne (orderLT_trans hcmp (hd1 y hyds))).symm
      · exact Or.inl h
      · exact Or.inr ⟨List.mem_cons_of_mem _ hxbs, hfresh⟩
    · rintro (h | ⟨hxb, hfresh⟩)
      · exact Or.inr (Or.inl h)
      · rcases List.mem_cons.mp hxb with rfl | hxbs
        · exact Or.inl rfl
        · exact Or.inr (Or.inr ⟨hxbs, hfresh⟩)
  | case4 b bs d ds hcmp ih =>
    intro hb hd x
    have hprice : b.price = d.price := orderComparator_eq_eq.mp hcmp
    rcases List.pairwise_cons.mp hb with ⟨hb1, hb2⟩
    rcases List.pairwise_cons.mp hd with ⟨hd1, hd2⟩
    rw [merge_cons_eq hcmp, List.mem_cons, ih hb2 hd2]
    constructor
    · rintro (rfl | h | ⟨hxbs, hfresh⟩)
      · exact Or.inl (List.mem_cons_self _ _)
      · exact Or.inl (List.mem_cons_of_mem _ h)
      · refine Or.inr ⟨List.mem_cons_of_mem _ hxbs, ?_⟩
        intro y hy
        rcases List.mem_cons.mp hy with rfl | hyds
        · have hne := orderLT_price_ne (hb1 x hxbs)
          rw [hprice] at hne
          exact hne
        · exact hfresh y hyds
    · rintro (h | ⟨hxb, hfresh⟩)
      · rcases List.mem_cons.mp h with rfl | hds
        · exact Or.inl rfl
        · exact Or.inr (Or.inl hds)
      · rcases List.mem_cons.mp hxb with rfl | hxbs
        · exact absurd hprice.symm (hfresh d (List.mem_cons_self _ _))
        · exact Or.inr (Or.inr ⟨hxbs, fun y hy => hfresh y (List.mem_cons_of_mem _ hy)⟩)
  | case5 b bs d ds hcmp ih =>
    intro hb hd x
    have hdb : OrderLT Q d b := orderComparator_lt_iff_gt.mpr hcmp
    have hb1 := (List.pairwise_cons.mp hb).1
    rcases List.pairwise_cons.mp hd with ⟨hd1, hd2⟩
    rw [merge_cons_gt hcmp, List.mem_cons, ih hb hd2]
    constructor
    · rintro (rfl | h | ⟨hxb, hfresh⟩)
      · exact Or.inl (List.mem_cons_self _ _)
      · exact Or.inl (List.mem_cons_of_mem _ h)
      · refine Or.inr ⟨hxb, ?_⟩
        intro y hy
        rcases List.mem_cons.mp hy with rfl | hyds
        · rcases List.mem_cons.mp hxb with rfl | hxbs
          · exact orderLT_price_ne hdb
          · exact orderLT_price_ne (orderLT_trans hdb (hb1 x hxbs))
        · exact hfresh y hyds
    · rintro (h | ⟨hxb, hfresh⟩)
      · rcases List.mem_cons.mp h with rfl | hds
        · exact Or.inl rfl
        · exact Or.inr (Or.inl hds)
      · exact Or.inr (Or.inr ⟨hxb, fun y hy => hfresh y (List.mem_cons_of_mem _ hy)⟩)

theorem validDiff_eq_of_mem {Q : Bool} :
    ∀ {l₁ l₂ : List Order}, ValidDiff Q l₁ → ValidDiff Q l₂ →
      (∀ x, x ∈ l₁ ↔ x ∈ l₂) → l₁ = l₂ := by
  intro l₁
  induction l₁ with
  | nil =>
    intro l₂ _ _ hmem
    cases l₂ with
    | nil => rfl
    | cons c cs => exact absurd ((hmem c).mpr (List.mem_cons_self _ _)) (List.not_mem_nil c)
  | cons a as ih =>
    intro l₂ h1 h2 hmem
    cases l₂ with
    | nil => exact absurd ((hmem a).mp (List.mem_cons_self _ _)) (List.not_mem_nil a)
    | cons c cs =>
      rcases List.pairwise_cons.mp h1 with ⟨ha, h1t⟩
      rcases List.pairwise_cons.mp h2 with ⟨hc, h2t⟩
      have hac : a = c := by
        rcases List.mem_cons.mp ((hmem a).mp (List.mem_cons_self _ _)) with h | h
        · exact h
        · rcases List.mem_cons.mp ((hmem c).mpr (List.mem_cons_self _ _)) with h' | h'
          · exact h'.symm
          · exact absurd (ha c h') (orderLT_asymm (hc a h))
      subst hac
      have hmem2 : ∀ x, x ∈ as ↔ x ∈ cs := by
        intro x
        constructor
        · intro hx
          rcases List.mem_cons.mp ((hmem x).mp (List.mem_cons_of_mem _ hx)) with rfl | h
          · exact absurd (ha x hx) (fun hh => orderLT_price_ne hh rfl)
          · exact h
        · intro hx
          rcases List.mem_cons.mp ((hmem x).mpr (List.mem_cons_of_mem _ hx)) with rfl | h
          · exact absurd (hc x hx) (fun hh => orderLT_price_ne hh rfl)
          · exact h
      rw [ih h1t h2t hmem2]

/-- Spec `empty_amount(d)` (test helper `default_amount`): every order of
the diff with its amount replaced by the default, zero, amount. -/
def emptyAmount (d : List Order) : List Order := d.map Order.empty

/-- Book restricted to the levels whose price does not occur in `d`. -/
def minusPrices (b d : List Order) : List Order :=
  b.filter (fun o => !(d.any (fun y => y.price == o.price)))

theorem validDiff_emptyAmount {Q : Bool} {d : List Order} (hd : ValidDiff Q d) :
    ValidDiff Q (emptyAmount d) := by
  unfold emptyAmount ValidDiff
  rw [List.pairwise_map]
  refine hd.imp ?_
  intro a b h
  exact h

/-- C3 (amended): cancellation holds provided the first update does not
overflow the depth cap; `b.update(d).update(empty_amount(d))` equals `b`
with the prices of `d` removed. -/
theorem update_cancellation (Q : Bool) (N : ℕ) (b d : List Order)
    (hb : ValidBook Q N b) (hd : ValidDiff Q d)
    (hcap : ((merge Q b d).filter (fun o => !o.isEmpty)).length ≤ N) :
    OrderBook.update Q N (OrderBook.update Q N b d) (emptyAmount d) =
      minusPrices b d := by
  obtain ⟨hbd, hbne, hblen⟩ := hb
  have hmergeValid : ValidDiff Q (merge Q b d) := merge_pairwise hbd hd
  have huValid : ValidDiff Q ((merge Q b d).filter (fun o => !o.isEmpty)) :=
    validDiff_filter _ hmergeValid
  have hedValid : ValidDiff Q (emptyAmount d) := validDiff_emptyAmount hd
  have h1 : OrderBook.update Q N b d = (merge Q b d).filter (fun o => !o.isEmpty) := by
    unfold OrderBook.update
    exact List.take_of_length_le hcap
  have hrValid : ValidDiff Q ((merge Q ((merge Q b d).filter (fun o => !o.isEmpty))
      (emptyAmount d)).filter (fun o => !o.isEmpty)) :=
    validDiff_filter _ (merge_pairwise huValid hedValid)
  have hmpValid : ValidDiff Q (minusPrices b d) := validDiff_filter _ hbd
  have hkey : (merge Q ((merge Q b d).filter (fun o => !o.isEmpty))
      (emptyAmount d)).filter (fun o => !o.isEmpty) = minusPrices b d := by
    apply validDiff_eq_of_mem hrValid hmpValid
    intro x
    constructor
    · intro hx
      rcases List.mem_filter.mp hx with ⟨hx1, hx2⟩
      rcases (mem_merge_iff huValid hedValid).mp hx1 with hxe | ⟨hxu, hfreshE⟩
      · rcases List.mem_map.mp hxe with ⟨z, _, rfl⟩
        simp [Order.isEmpty, Order.empty] at hx2
      · have hfresh : ∀ y ∈ d, y.price ≠ x.price := by
          intro y hy
          exact hfreshE (Order.empty y) (List.mem_map_of_mem _ hy)
        rcases List.mem_filter.mp hxu with ⟨hxm, _⟩
        rcases (mem_merge_iff hbd hd).mp hxm with hxd | ⟨hxb, _⟩
        · exact absurd rfl (hfresh x hxd)
        · refine List.mem_filter.mpr ⟨hxb, ?_⟩
          simp only [Bool.not_eq_true', List.any_eq_false]
          intro y hy
          simpa using hfresh y hy
    · intro hx
      rcases List.mem_filter.mp hx with ⟨hxb, hcond⟩
      have hfresh : ∀ y ∈ d, y.price ≠ x.price := by
        simp only [Bool.not_eq_true', List.any_eq_false] at hcond
        intro y hy
        simpa using hcond y hy
      have hxne : x.isEmpty = false := hbne x hxb
      have hxu : x ∈ (merge Q b d).filter (fun o => !o.isEmpty) :=
        List.mem_filter.mpr ⟨(mem_merge_iff hbd hd).mpr (Or.inr ⟨hxb, hfresh⟩),
          by simp [hxne]⟩
      refine List.mem_filter.mpr
        ⟨(mem_merge_iff huValid hedValid).mpr (Or.inr ⟨hxu, ?_⟩), by simp [hxne]⟩
      intro y hy
      rcases List.mem_map.mp hy with ⟨z, hz, rfl⟩
      exact hfresh z hz
  rw [h1]
  unfold OrderBook.update
  rw [hkey]
  apply List.take_of_length_le
  calc (minusPrices b d).length ≤ b.length := List.length_filter_le _ _
    _ ≤ N := hblen

/-- C3 counterexample: with the depth cap N = 10, a full valid ask book and
a one-level diff inserting a better price, the element evicted by the cap is
lost, so applying the diff and then its zero-amount form does not return the
book minus the diff prices; the claim fails as universally stated. -/
theorem update_cancellation_counterexample :
    ValidBook false 10
      ([⟨2, 1⟩, ⟨3, 1⟩, ⟨4, 1⟩, ⟨5, 1⟩, ⟨6, 1⟩, ⟨7, 1⟩, ⟨8, 1⟩, ⟨9, 1⟩, ⟨10, 1⟩,
        ⟨11, 1⟩] : List Order) ∧
    ValidDiff false ([⟨1, 7⟩] : List Order) ∧
    OrderBook.update false 10
        (OrderBook.update false 10
          [⟨2, 1⟩, ⟨3, 1⟩, ⟨4, 1⟩, ⟨5, 1⟩, ⟨6, 1⟩, ⟨7, 1⟩, ⟨8, 1⟩, ⟨9, 1⟩, ⟨10, 1⟩,
            ⟨11, 1⟩] [⟨1, 7⟩])
        (emptyAmount [⟨1, 7⟩]) ≠
      minusPrices
        [⟨2, 1⟩, ⟨3, 1⟩, ⟨4, 1⟩, ⟨5, 1⟩, ⟨6, 1⟩, ⟨7, 1⟩, ⟨8, 1⟩, ⟨9, 1⟩, ⟨10, 1⟩,
          ⟨11, 1⟩] [⟨1, 7⟩] := by
  refine ⟨by decide, by decide, by decide⟩

/-- Witness for the amended C3 at a concrete book and diff. -/
theorem update_cancellation_witness :
    ValidBook false 10 [⟨1, 1⟩, ⟨2, 1⟩] ∧ ValidDiff false [⟨2, 0⟩, ⟨3, 4⟩] ∧
      ((merge false [⟨1, 1⟩, ⟨2, 1⟩] [⟨2, 0⟩, ⟨3, 4⟩]).filter
        (fun o => !o.isEmpty)).length ≤ 10 ∧
      OrderBook.update false 10
          (OrderBook.update false 10 [⟨1, 1⟩, ⟨2, 1⟩] [⟨2, 0⟩, ⟨3, 4⟩])
          (emptyAmount [⟨2, 0⟩, ⟨3, 4⟩]) =
        minusPrices [⟨1, 1⟩, ⟨2, 1⟩] [⟨2, 0⟩, ⟨3, 4⟩] :=
  ⟨by decide, by decide, by decide,
    update_cancellation false 10 [⟨1, 1⟩, ⟨2, 1⟩] [⟨2, 0⟩, ⟨3, 4⟩]
      (by decide) (by decide) (by decide)⟩

/-- Non-strict precedence under the side order: not ranked after. -/
def OrderLE (Q : Bool) (l r : Order) : Prop := orderComparator Q l r ≠ Ordering.gt

instance (Q : Bool) : DecidableRel (OrderLE Q) :=
  fun a b => inferInstanceAs (Decidable (¬ _ = _))

theorem pcmp_ne_gt {a b : ℚ} : pcmp a b ≠ Ordering.gt ↔ a ≤ b := by
  rw [Ne, pcmp_eq_gt, not_lt]

theorem orderLE_trans {Q : Bool} {a b c : Order} :
    OrderLE Q a b → OrderLE Q b c → OrderLE Q a c := by
  unfold OrderLE
  cases Q
  · rw [orderComparator_false, orderComparator_false, orderComparator_false,
      pcmp_ne_gt, pcmp_ne_gt, pcmp_ne_gt]
    exact le_trans
  · rw [orderComparator_true, orderComparator_true, orderComparator_true,
      pcmp_ne_gt, pcmp_ne_gt, pcmp_ne_gt]
    exact fun h1 h2 => le_trans h2 h1

theorem orderLE_of_gt {Q : Bool} {a b : Order}
    (h : orderComparator Q a b = Ordering.gt) : OrderLE Q b a := by
  have hlt : orderComparator Q b a = Ordering.lt := orderComparator_lt_iff_gt.mpr h
  unfold OrderLE
  rw [hlt]
  exact fun hc => Ordering.noConfusion hc

theorem orderLE_of_lt {Q : Bool} {a b : Order} (h : OrderLT Q a b) : OrderLE Q a b := by
  unfold OrderLE
  rw [h]
  exact fun hc => Ordering.noConfusion hc

/-- Single insertion step of the sort by the side comparator. -/
def insertOrdered (Q : Bool) (o : Order) : List Order → List Order
  | [] => [o]
  | x :: xs =>
    match orderComparator Q o x with
    | Ordering.gt => x :: insertOrdered Q o xs
    | _ => o :: x :: xs

/-- Model of `sort_unstable_by(order_comparator)` — and of the
`select_nth_unstable_by` + prefix `sort_unstable_by` ranking performed by
`OrderBook::new` — as a full insertion sort by the side comparator.  The
Rust code only guarantees the examined prefix to be ranked; a full sort is
one realisation of that contract, and wherever the claims observe the
result, comparator ties either are rejected by the constructors or lie
beyond the examined prefix, so the realisation choice is not observable. -/
def sortSide (Q : Bool) : List Order → List Order
  | [] => []
  | x :: xs => insertOrdered Q x (sortSide Q xs)

theorem insertOrdered_perm (Q : Bool) (o : Order) :
    ∀ (l : List Order), List.Perm (insertOrdered Q o l) (o :: l) := by
  intro l
  induction l with
  | nil => simp [insertOrdered]
  | cons x xs ih =>
    rcases hc : orderComparator Q o x with _ | _ | _
    · simp [insertOrdered, hc]
    · simp [insertOrdered, hc]
    · rw [insertOrdered, hc]
      exact (ih.cons x).trans (List.Perm.swap o x xs)

theorem sortSide_perm (Q : Bool) : ∀ (l : List Order), List.Perm (sortSide Q l) l := by
  intro l
  induction l with
  | nil => exact List.Perm.refl []
  | cons x xs ih =>
    rw [sortSide]
    exact (insertOrdered_perm Q x (sortSide Q xs)).trans (ih.cons x)

theorem insertOrdered_sorted {Q : Bool} (o : Order) :
    ∀ {l : List Order}, l.Pairwise (OrderLE Q) →
      (insertOrdered Q o l).Pairwise (OrderLE Q) := by
  intro l
  induction l with
  | nil => intro _; simp [insertOrdered]
  | cons x xs ih =>
    intro hs
    rcases List.pairwise_cons.mp hs with ⟨hx, hxs⟩
    rcases hc : orderComparator Q o x with _ | _ | _
    · rw [insertOrdered, hc]
      refine List.pairwise_cons.mpr ⟨?_, hs⟩
      intro y hy
      rcases List.mem_cons.mp hy with rfl | hyxs
      · exact fun hcc => Ordering.noConfusion (hc ▸ hcc)
      · exact orderLE_trans (fun hcc => Ordering.noConfusion (hc ▸ hcc)) (hx y hyxs)
    · rw [insertOrdered, hc]
      refine List.pairwise_cons.mpr ⟨?_, hs⟩
      intro y hy
      rcases List.mem_cons.mp hy with rfl | hyxs
      · exact fun hcc => Ordering.noConfusion (hc ▸ hcc)
      · exact orderLE_trans (fun hcc => Ordering.noConfusion (hc ▸ hcc)) (hx y hyxs)
    · rw [insertOrdered, hc]
      refine List.pairwise_cons.mpr ⟨?_, ih hxs⟩
      intro y hy
      rcases List.mem_cons.mp ((insertOrdered_perm Q o xs).mem_iff.mp hy) with rfl | hyxs
      · exact orderLE_of_gt hc
      · exact hx y hyxs

theorem sortSide_sorted (Q : Bool) : ∀ (l : List Order),
    (sortSide Q l).Pairwise (OrderLE Q) := by
  intro l
  induction l with
  | nil => simp [sortSide]
  | cons x xs ih =>
    rw [sortSide]
    exact insertOrdered_sorted x ih

/-- Source `enum OrderBookError`. -/
inductive OrderBookError where
  | hasOrderWithNotUniquePrice
  | hasOrderWithEmptyAmount
  | ordersNotSortedAccordingToQuoteType
deriving DecidableEq, Repr

/-- Adjacent price-distinctness threading the previous price, the shape of
the uniqueness folds in both `new_sorted_unchecked` constructors. -/
def adjacentDistinctFrom (p : ℚ) : List Order → Bool
  | [] => true
  | o :: rest => (!(p == o.price)) && adjacentDistinctFrom o.price rest

/-- Uniqueness check on a whole list: head price threaded through the rest;
`true` on the empty list (`unwrap_or((true, ..))` in the source). -/
def diffCheck : List Order → Bool
  | [] => true
  | first :: rest => adjacentDistinctFrom first.price rest

/-- Source `OrderBookDiff::new_sorted_unchecked`: fold over the tail
checking that consecutive prices differ; `Ok` keeps the orders unchanged. -/
def OrderBookDiff.newSortedUnchecked (orders : List Order) :
    Except OrderBookError (List Order) :=
  let u : Bool :=
    match orders with
    | [] => true
    | first :: rest =>
      (rest.foldl (fun t o => (t.1 && !(t.2 == o.price), o.price))
        ((true : Bool), first.price)).1
  if u then Except.ok orders
  else Except.error OrderBookError.hasOrderWithNotUniquePrice

/-- Source `OrderBookDiff::new`: sort by the side comparator, then run the
sorted-input validation. -/
def OrderBookDiff.new (Q : Bool) (orders : List Order) :
    Except OrderBookError (List Order) :=
  OrderBookDiff.newSortedUnchecked (sortSide Q orders)

theorem foldl_unique_spec : ∀ (l : List Order) (u : Bool) (p : ℚ),
    (l.foldl (fun t o => (t.1 && !(t.2 == o.price), o.price)) (u, p)).1 =
      (u && adjacentDistinctFrom p l) := by
  intro l
  induction l with
  | nil => intro u p; simp [adjacentDistinctFrom]
  | cons o rest ih =>
    intro u p
    rw [List.foldl_cons]
    show (rest.foldl _ (u && !(p == o.price), o.price)).1 = _
    rw [ih, adjacentDistinctFrom, Bool.and_assoc]

theorem newSortedUnchecked_eq (orders : List Order) :
    OrderBookDiff.newSortedUnchecked orders =
      if diffCheck orders then Except.ok orders
      else Except.error OrderBookError.hasOrderWithNotUniquePrice := by
  cases orders with
  | nil => rfl
  | cons first rest =>
    show (if (rest.foldl (fun t o => (t.1 && !(t.2 == o.price), o.price))
          ((true : Bool), first.price)).1 = true then
        Except.ok (first :: rest)
      else Except.error OrderBookError.hasOrderWithNotUniquePrice) = _
    rw [foldl_unique_spec, Bool.true_and]
    rfl

theorem diffCheck_iff {Q : Bool} :
    ∀ {l : List Order}, l.Pairwise (OrderLE Q) →
      (diffCheck l = true ↔ ValidDiff Q l) := by
  intro l
  induction l with
  | nil => intro _; simp [diffCheck, ValidDiff]
  | cons a tail ih =>
    intro hs
    cases tail with
    | nil => simp [diffCheck, adjacentDistinctFrom, ValidDiff]
    | cons b l2 =>
      have hab : OrderLE Q a b := (List.pairwise_cons.mp hs).1 b (List.mem_cons_self _ _)
      have ihtail := ih (List.pairwise_cons.mp hs).2
      constructor
      · intro h
        simp only [diffCheck, adjacentDistinctFrom, Bool.and_eq_true,
          Bool.not_eq_true', beq_eq_false_iff_ne, ne_eq] at h
        obtain ⟨hne, hrest⟩ := h
        have hvtail : ValidDiff Q (b :: l2) := ihtail.mp (by simpa [diffCheck] using hrest)
        have hlt : OrderLT Q a b := orderLT_of_not_gt_of_price_ne hab hne
        refine List.pairwise_cons.mpr ⟨?_, hvtail⟩
        intro y hy
        rcases List.mem_cons.mp hy with rfl | hyl2
        · exact hlt
        · exact orderLT_trans hlt ((List.pairwise_cons.mp hvtail).1 y hyl2)
      · intro h
        rcases List.pairwise_cons.mp h with ⟨hhead, hvtail⟩
        have hne := orderLT_price_ne (hhead b (List.mem_cons_self _ _))
        have hrest := ihtail.mpr hvtail
        simp only [diffCheck] at hrest
        simp only [diffCheck, adjacentDistinctFrom, Bool.and_eq_true,
          Bool.not_eq_true', beq_eq_false_iff_ne, ne_eq]
        exact ⟨hne, hrest⟩

theorem validDiff_iff_distinct_of_sorted {Q : Bool} {l : List Order}
    (hs : l.Pairwise (OrderLE Q)) : ValidDiff Q l ↔ DistinctPrices l := by
  constructor
  · exact fun h => h.imp orderLT_price_ne
  · intro h
    exact (hs.and h).imp (fun h => orderLT_of_not_gt_of_price_ne h.1 h.2)

theorem distinctPrices_perm {l₁ l₂ : List Order} (hp : List.Perm l₁ l₂) :
    DistinctPrices l₁ ↔ DistinctPrices l₂ :=
  hp.pairwise_iff (fun h => h.symm)

/-- C8: `Diff::new(V)` succeeds if and only if the prices of `V` are
pairwise distinct; on success the result is a permutation of `V` sorted by
the side comparator (strictly, since prices are distinct), and on failure
the error is `HasOrderWithNotUniquePrice`. -/
theorem diff_new_spec (Q : Bool) (V : List Order) :
    ((OrderBookDiff.new Q V).isOk = true ↔ DistinctPrices V) ∧
    (∀ l, OrderBookDiff.new Q V = Except.ok l →
      List.Perm l V ∧ SortedSide Q l ∧ ValidDiff Q l) ∧
    ((OrderBookDiff.new Q V).isOk = false →
      OrderBookDiff.new Q V = Except.error OrderBookError.hasOrderWithNotUniquePrice) := by
  have hsorted := sortSide_sorted Q V
  have hperm := sortSide_perm Q V
  have hiff : diffCheck (sortSide Q V) = true ↔ DistinctPrices V := by
    rw [diffCheck_iff hsorted, validDiff_iff_distinct_of_sorted hsorted]
    exact distinctPrices_perm hperm
  refine ⟨?_, ?_, ?_⟩
  · rw [← hiff]
    unfold OrderBookDiff.new
    rw [newSortedUnchecked_eq]
    cases hdc : diffCheck (sortSide Q V) <;>
      simp [Except.isOk, Except.toBool]
  · intro l hl
    unfold OrderBookDiff.new at hl
    rw [newSortedUnchecked_eq] at hl
    cases hdc : diffCheck (sortSide Q V) <;> rw [hdc] at hl <;> simp at hl
    subst hl
    exact ⟨hperm, hsorted, (diffCheck_iff hsorted).mp hdc⟩
  · intro hfail
    unfold OrderBookDiff.new at *
    rw [newSortedUnchecked_eq] at hfail ⊢
    cases hdc : diffCheck (sortSide Q V)
    · simp
    · rw [hdc] at hfail
      simp [Except.isOk, Except.toBool] at hfail

/-- Witness for C8 at a concrete unordered bid vector. -/
theorem diff_new_spec_witness :
    OrderBookDiff.new true [⟨2, 1⟩, ⟨3, 2⟩, ⟨1, 0⟩] = Except.ok [⟨3, 2⟩, ⟨2, 1⟩, ⟨1, 0⟩] ∧
      (List.Perm ([⟨3, 2⟩, ⟨2, 1⟩, ⟨1, 0⟩] : List Order) [⟨2, 1⟩, ⟨3, 2⟩, ⟨1, 0⟩] ∧
        SortedSide true [⟨3, 2⟩, ⟨2, 1⟩, ⟨1, 0⟩] ∧
        ValidDiff true [⟨3, 2⟩, ⟨2, 1⟩, ⟨1, 0⟩]) :=
  ⟨rfl, (diff_new_spec true [⟨2, 1⟩, ⟨3, 2⟩, ⟨1, 0⟩]).2.1 [⟨3, 2⟩, ⟨2, 1⟩, ⟨1, 0⟩] rfl⟩

/-- Source `OrderBook::new_sorted_unchecked`: fold over `rest.take(COUNT)` —
together with `first`, the first `COUNT + 1` ranked elements — computing the
adjacent-distinctness and the any-empty flags; empty wins over non-unique,
and `Ok` truncates to `COUNT` elements (`new_unchecked`). -/
def OrderBook.newSortedUnchecked (N : ℕ) (orders : List Order) :
    Except OrderBookError (List Order) :=
  let p : Bool × Bool :=
    match orders with
    | [] => (true, false)
    | first :: rest =>
      let t := (rest.take N).foldl
        (fun t o => (t.1 && !(t.2.2 == o.price), t.2.1 || o.isEmpty, o.price))
        ((true : Bool), first.isEmpty, first.price)
      (t.1, t.2.1)
  if p.2 then Except.error OrderBookError.hasOrderWithEmptyAmount
  else if !p.1 then Except.error OrderBookError.hasOrderWithNotUniquePrice
  else Except.ok (orders.take N)

/-- Postcondition of the ranking step of `OrderBook::new` —
`select_nth_unstable_by(index, cmp)` with `index = min(|V|, COUNT) - 1`
followed by `sort_unstable_by` on the part before `index`: `W` is a
permutation of the input whose first `min(|V|, COUNT)` positions hold best
elements in side order, every later element ranking no better than each of
them; the order of the suffix is left unspecified by the source, so the
ranking is a relation, not a function. -/
def RankedFor (Q : Bool) (N : ℕ) (V W : List Order) : Prop :=
  List.Perm W V ∧
  (W.take (min V.length N)).Pairwise (OrderLE Q) ∧
  ∀ x ∈ W.take (min V.length N), ∀ y ∈ W.drop (min V.length N), OrderLE Q x y

instance (Q : Bool) (N : ℕ) (V W : List Order) : Decidable (RankedFor Q N V W) :=
  inferInstanceAs (Decidable (_ ∧ _ ∧ _))

/-- Source `OrderBook::new` as a relation between the input and the
admissible results: empty input yields the default book; otherwise some
ranking admitted by `select_nth_unstable_by` + prefix sort is validated by
`new_sorted_unchecked`.  A relation because the suffix order after the
selection is unspecified, so for inputs longer than `COUNT + 1` the element
at the last validated position is an unspecified leftover. -/
def OrderBook.new (Q : Bool) (N : ℕ) (orders : List Order)
    (r : Except OrderBookError (List Order)) : Prop :=
  if orders.isEmpty then r = Except.ok []
  else ∃ W, RankedFor Q N orders W ∧ r = OrderBook.newSortedUnchecked N W

theorem bookFold_spec : ∀ (l : List Order) (u e : Bool) (p : ℚ),
    ((l.foldl (fun t o => (t.1 && !(t.2.2 == o.price), t.2.1 || o.isEmpty, o.price))
      (u, e, p)).1 = (u && adjacentDistinctFrom p l)) ∧
    ((l.foldl (fun t o => (t.1 && !(t.2.2 == o.price), t.2.1 || o.isEmpty, o.price))
      (u, e, p)).2.1 = (e || l.any (fun o => o.isEmpty))) := by
  intro l
  induction l with
  | nil => intro u e p; simp [adjacentDistinctFrom]
  | cons o rest ih =>
    intro u e p
    rw [List.foldl_cons]
    show ((rest.foldl _ (u && !(p == o.price), e || o.isEmpty, o.price)).1 = _) ∧
      ((rest.foldl _ (u && !(p == o.price), e || o.isEmpty, o.price)).2.1 = _)
    constructor
    · rw [(ih _ _ _).1, adjacentDistinctFrom, Bool.and_assoc]
    · rw [(ih _ _ _).2, List.any_cons, Bool.or_assoc]

theorem book_newSortedUnchecked_eq (N : ℕ) (orders : List Order) :
    OrderBook.newSortedUnchecked N orders =
      if (orders.take (N + 1)).any (fun o => o.isEmpty) then
        Except.error OrderBookError.hasOrderWithEmptyAmount
      else if !(diffCheck (orders.take (N + 1))) then
        Except.error OrderBookError.hasOrderWithNotUniquePrice
      else Except.ok (orders.take N) := by
  cases orders with
  | nil => simp [OrderBook.newSortedUnchecked, diffCheck]
  | cons first rest =>
    show (if ((rest.take N).foldl
          (fun t o => (t.1 && !(t.2.2 == o.price), t.2.1 || o.isEmpty, o.price))
          ((true : Bool), first.isEmpty, first.price)).2.1 = true then
        Except.error OrderBookError.hasOrderWithEmptyAmount
      else if (!((rest.take N).foldl
          (fun t o => (t.1 && !(t.2.2 == o.price), t.2.1 || o.isEmpty, o.price))
          ((true : Bool), first.isEmpty, first.price)).1) = true then
        Except.error OrderBookError.hasOrderWithNotUniquePrice
      else Except.ok ((first :: rest).take N)) = _
    rw [(bookFold_spec (rest.take N) true first.isEmpty first.price).1,
      (bookFold_spec (rest.take N) true first.isEmpty first.price).2,
      Bool.true_and, List.take_succ_cons, List.any_cons]
    rfl

/-- Validity of a checked prefix: no empty order and pairwise distinct
prices. -/
def PrefixValid (l : List Order) : Prop :=
  (∀ o ∈ l, o.isEmpty = false) ∧ DistinctPrices l

instance (l : List Order) : Decidable (PrefixValid l) :=
  inferInstanceAs (Decidable (_ ∧ _))

theorem prefixValid_iff {Q : Bool} {l : List Order} (hs : l.Pairwise (OrderLE Q)) :
    PrefixValid l ↔
      (l.any (fun o => o.isEmpty) = false ∧ diffCheck l = true) := by
  unfold PrefixValid
  constructor
  · rintro ⟨h1, h2⟩
    refine ⟨?_, (diffCheck_iff hs).mpr ((validDiff_iff_distinct_of_sorted hs).mpr h2)⟩
    rw [List.any_eq_false]
    intro x hx
    simp [h1 x hx]
  · rintro ⟨h1, h2⟩
    refine ⟨?_, (validDiff_iff_distinct_of_sorted hs).mp ((diffCheck_iff hs).mp h2)⟩
    intro o ho
    have := List.any_eq_false.mp h1 o ho
    simpa using this

theorem pairwise_of_short {Q : Bool} (l : List Order) (h : l.length ≤ 1) :
    l.Pairwise (OrderLE Q) := by
  cases l with
  | nil => exact List.Pairwise.nil
  | cons a t =>
    cases t with
    | nil => simp
    | cons b t2 => simp at h

theorem sortSide_rankedFor (Q : Bool) (N : ℕ) (V : List Order) :
    RankedFor Q N V (sortSide Q V) := by
  refine ⟨sortSide_perm Q V,
    List.Pairwise.sublist (List.take_sublist _ _) (sortSide_sorted Q V), ?_⟩
  intro x hx y hy
  have hsorted := sortSide_sorted Q V
  rw [← List.take_append_drop (min V.length N) (sortSide Q V)] at hsorted
  exact (List.pairwise_append.mp hsorted).2.2 x hx y hy

theorem rankedFor_prefix_sorted {Q : Bool} {N : ℕ} {V W : List Order}
    (h : RankedFor Q N V W) : (W.take (N + 1)).Pairwise (OrderLE Q) := by
  obtain ⟨hperm, hsort, hcross⟩ := h
  have hlenW : W.length = V.length := hperm.length_eq
  rcases le_or_lt V.length N with hlen | hlen
  · rw [min_eq_left hlen, ← hlenW, List.take_length] at hsort
    exact List.Pairwise.sublist (List.take_sublist _ _) hsort
  · rw [min_eq_right (le_of_lt hlen)] at hsort hcross
    rw [List.take_add]
    apply List.pairwise_append.mpr
    refine ⟨hsort, pairwise_of_short _ (List.length_take_le _ _), ?_⟩
    intro a ha b hb
    exact hcross a ha b ((List.take_sublist _ _).subset hb)

theorem rankedFor_full_sorted {Q : Bool} {N : ℕ} {V W : List Order}
    (h : RankedFor Q N V W) (hlen : V.length ≤ N + 1) :
    W.Pairwise (OrderLE Q) := by
  have hp := rankedFor_prefix_sorted h
  rwa [List.take_of_length_le (by rw [h.1.length_eq]; exact hlen)] at hp

theorem rankedFor_unique {Q : Bool} {N : ℕ} {V W : List Order}
    (hdist : DistinctPrices V) (hlen : V.length ≤ N + 1) (h : RankedFor Q N V W) :
    W = sortSide Q V := by
  have hWsort := rankedFor_full_sorted h hlen
  have hWdist : DistinctPrices W := (distinctPrices_perm h.1).mpr hdist
  have hW : ValidDiff Q W := (validDiff_iff_distinct_of_sorted hWsort).mpr hWdist
  have hSsort := sortSide_sorted Q V
  have hSdist : DistinctPrices (sortSide Q V) :=
    (distinctPrices_perm (sortSide_perm Q V)).mpr hdist
  have hS : ValidDiff Q (sortSide Q V) :=
    (validDiff_iff_distinct_of_sorted hSsort).mpr hSdist
  apply validDiff_eq_of_mem hW hS
  intro x
  rw [h.1.mem_iff, (sortSide_perm Q V).mem_iff]

/-- C2 (amended): `Book::new(V)` ranks `V` so that the best `min(|V|, N)`
elements stand side-sorted at the front, the suffix order unspecified, and
validates the first `min(|V|, N+1)` ranked elements — one more than the
cap — for emptiness and adjacent price distinctness, so the ranked element
at position `N+1`, although discarded by truncation, participates in
validation and can cause failure.  For every admissible execution, success
yields a valid book of at most `N` levels drawn from `V` with every kept
level ranking no worse than every dropped one, the checker succeeds on a
ranking exactly when its `(N+1)`-prefix is valid, and whenever
`|V| ≤ N + 1` with distinct prices the ranking — hence the outcome — is
forced. -/
theorem book_new_spec (Q : Bool) (N : ℕ) (V : List Order) :
    (∀ r, OrderBook.new Q N V r → ∀ bk, r = Except.ok bk →
      ValidBook Q N bk ∧
        ∃ rest, List.Perm V (bk ++ rest) ∧ ∀ x ∈ bk, ∀ y ∈ rest, OrderLE Q x y) ∧
    (∀ W, RankedFor Q N V W →
      ((OrderBook.newSortedUnchecked N W).isOk = true ↔
        PrefixValid (W.take (N + 1)))) ∧
    (V.length ≤ N + 1 → DistinctPrices V → ∀ r, OrderBook.new Q N V r →
      r = if V.isEmpty then Except.ok []
        else OrderBook.newSortedUnchecked N (sortSide Q V)) := by
  refine ⟨?_, ?_, ?_⟩
  · intro r hr bk hbk
    unfold OrderBook.new at hr
    by_cases hV : V.isEmpty = true
    · rw [if_pos hV] at hr
      subst hr
      simp at hbk
      subst hbk
      have hVnil : V = [] := List.isEmpty_iff.mp hV
      refine ⟨⟨List.Pairwise.nil, by simp, by simp⟩, [], ?_, by simp⟩
      rw [hVnil]
      rfl
    · rw [if_neg hV] at hr
      obtain ⟨W, hrank, rfl⟩ := hr
      rw [book_newSortedUnchecked_eq] at hbk
      cases hE : (W.take (N + 1)).any (fun o => o.isEmpty) <;> rw [hE] at hbk
      swap
      · simp at hbk
      · cases hU : diffCheck (W.take (N + 1)) <;> rw [hU] at hbk <;> simp at hbk
        subst hbk
        have hps := rankedFor_prefix_sorted hrank
        have hvd : ValidDiff Q (W.take (N + 1)) := (diffCheck_iff hps).mp hU
        have htt : (W.take (N + 1)).take N = W.take N := by
          rw [List.take_take, min_eq_left (Nat.le_succ N)]
        constructor
        · refine ⟨?_, ?_, List.length_take_le _ _⟩
          · rw [← htt]
            exact List.Pairwise.sublist (List.take_sublist _ _) hvd
          · intro o ho
            rw [← htt] at ho
            have ho2 := (List.take_sublist _ _).subset ho
            have := List.any_eq_false.mp hE o ho2
            simpa using this
        · refine ⟨W.drop N, ?_, ?_⟩
          · rw [List.take_append_drop]
            exact hrank.1.symm
          · intro x hx y hy
            rcases le_or_lt V.length N with hlen | hlen
            · have hnil : W.drop N = [] :=
                List.drop_eq_nil_of_le (by rw [hrank.1.length_eq]; exact hlen)
              rw [hnil] at hy
              exact absurd hy (List.not_mem_nil y)
            · have hcross := hrank.2.2
              rw [min_eq_right (le_of_lt hlen)] at hcross
              exact hcross x hx y hy
  · intro W hrank
    rw [book_newSortedUnchecked_eq]
    have hps := rankedFor_prefix_sorted hrank
    have hprefix := prefixValid_iff hps
    cases hE : (W.take (N + 1)).any (fun o => o.isEmpty)
    · cases hU : diffCheck (W.take (N + 1)) <;>
        simp [hE, hU, Except.isOk, Except.toBool, hprefix]
    · simp [hE, Except.isOk, Except.toBool, hprefix]
  · intro hlen hdist r hr
    unfold OrderBook.new at hr
    by_cases hV : V.isEmpty = true
    · rw [if_pos hV] at hr
      rw [if_pos hV]
      exact hr
    · rw [if_neg hV] at hr
      rw [if_neg hV]
      obtain ⟨W, hrank, rfl⟩ := hr
      rw [rankedFor_unique hdist hlen hrank]

/-- C2 counterexample: eleven ask orders with distinct prices whose worst —
discarded by truncation to N = 10 — is empty.  At this length the ranking
admitted by `select_nth_unstable_by` is forced, so every admissible
execution of the constructor fails with `HasOrderWithEmptyAmount`, although
the ten kept levels are distinct and non-empty: validation is not confined
to the first N ranked elements, and an element that truncation discards
causes the failure. -/
theorem book_new_counterexample :
    (∀ r, OrderBook.new false 10
        [⟨1, 1⟩, ⟨2, 1⟩, ⟨3, 1⟩, ⟨4, 1⟩, ⟨5, 1⟩, ⟨6, 1⟩, ⟨7, 1⟩, ⟨8, 1⟩, ⟨9, 1⟩,
          ⟨10, 1⟩, ⟨11, 0⟩] r →
      r = Except.error OrderBookError.hasOrderWithEmptyAmount) ∧
    PrefixValid ((sortSide false
        [⟨1, 1⟩, ⟨2, 1⟩, ⟨3, 1⟩, ⟨4, 1⟩, ⟨5, 1⟩, ⟨6, 1⟩, ⟨7, 1⟩, ⟨8, 1⟩, ⟨9, 1⟩,
          ⟨10, 1⟩, ⟨11, 0⟩]).take 10) := by
  constructor
  · intro r hr
    unfold OrderBook.new at hr
    rw [if_neg (by decide)] at hr
    obtain ⟨W, hrank, rfl⟩ := hr
    rw [rankedFor_unique (by decide) (by decide) hrank]
    rfl
  · decide

/-- Witness for the amended C2 at a concrete unordered ask vector, with the
full sort as the admitted ranking. -/
theorem book_new_spec_witness :
    OrderBook.new false 2 [⟨3, 1⟩, ⟨1, 1⟩, ⟨2, 1⟩] (Except.ok [⟨1, 1⟩, ⟨2, 1⟩]) ∧
      (ValidBook false 2 [⟨1, 1⟩, ⟨2, 1⟩] ∧
        ∃ rest, List.Perm [⟨3, 1⟩, ⟨1, 1⟩, ⟨2, 1⟩] ([⟨1, 1⟩, ⟨2, 1⟩] ++ rest) ∧
          ∀ x ∈ ([⟨1, 1⟩, ⟨2, 1⟩] : List Order), ∀ y ∈ rest, OrderLE false x y) :=
  have hB : OrderBook.new false 2 [⟨3, 1⟩, ⟨1, 1⟩, ⟨2, 1⟩]
      (Except.ok [⟨1, 1⟩, ⟨2, 1⟩]) :=
    ⟨sortSide false [⟨3, 1⟩, ⟨1, 1⟩, ⟨2, 1⟩], sortSide_rankedFor false 2 _, rfl⟩
  ⟨hB, (book_new_spec false 2 [⟨3, 1⟩, ⟨1, 1⟩, ⟨2, 1⟩]).1 _ hB [⟨1, 1⟩, ⟨2, 1⟩] rfl⟩

/-- Source `const BEST_ORDER_BOOK_SIZE: usize = 10`. -/
def BEST_ORDER_BOOK_SIZE : ℕ := 10

/-- Source `enum Exchange` with its `EnumIter` iteration order. -/
inductive Exchange where
  | binance
  | bitstamp
deriving DecidableEq, Repr

/-- Source `exchange as usize` ordinal. -/
def Exchange.toIdx : Exchange → ℕ
  | .binance => 0
  | .bitstamp => 1

/-- Source `Exchange::iter()` order. -/
def Exchange.iterList : List Exchange := [.binance, .bitstamp]

/-- Source `struct SummaryOrder(Exchange, Order)`. -/
structure SummaryOrder where
  exchange : Exchange
  order : Order
deriving DecidableEq, Repr

/-- Source `struct SummaryOrderBook`: one slot `(exchange, bids, asks)` per
exchange, indexed by ordinal. -/
structure SummaryOrderBook where
  books : List (Exchange × List Order × List Order)
deriving DecidableEq, Repr

/-- Source `SummaryOrderBook::default()`: a default (empty) pair of books
for every exchange in iteration order. -/
def SummaryOrderBook.default : SummaryOrderBook :=
  ⟨Exchange.iterList.map (fun e => (e, [], []))⟩

/-- Source comparator closures of `SummaryOrderBook::quotes`: strictly
before when the price is strictly better for the side, tie-broken by
strictly larger amount (`l.order().amount() > r.order().amount()`). -/
def summaryLess (Q : Bool) (l r : SummaryOrder) : Bool :=
  match orderComparator Q l.order r.order with
  | Ordering.lt => true
  | Ordering.eq => decide (r.order.amount < l.order.amount)
  | Ordering.gt => false

/-- Inner loop of the binary merge step of itertools `kmerge_by` while the
left head is `a` and `k` merges the remaining left entries: the right head
is taken only when strictly less (by `pred`); ties prefer the earlier
stream. -/
def kmergeTwoCons {α : Type} (pred : α → α → Bool) (a : α) (k : List α → List α) :
    List α → List α
  | [] => a :: k []
  | b :: bs => if pred b a then b :: kmergeTwoCons pred a k bs else a :: k (b :: bs)

/-- Binary sorted merge by a strict `less_than` predicate, the building
block of itertools `kmerge_by`. -/
def kmergeTwo {α : Type} (pred : α → α → Bool) : List α → List α → List α
  | [] => fun r => r
  | a :: as => kmergeTwoCons pred a (kmergeTwo pred as)

/-- itertools `kmerge_by` over a list of sorted streams, realised as the
right fold of binary merges (heads compared by `pred`, earlier streams
preferred on ties). -/
def kmergeBy {α : Type} (pred : α → α → Bool) (ls : List (List α)) : List α :=
  ls.foldr (kmergeTwo pred) []

/-- Source `SummaryOrderBook::quotes::<QUOTE>`: tag every stored order of
the requested side with its exchange, k-way merge the per-exchange streams
with the side comparator, and keep the best `BEST_ORDER_BOOK_SIZE`. -/
def SummaryOrderBook.quotes (Q : Bool) (s : SummaryOrderBook) : List SummaryOrder :=
  (kmergeBy (summaryLess Q)
    (s.books.map (fun eb =>
      (if Q then eb.2.1 else eb.2.2).map (fun o => ⟨eb.1, o⟩)))).take
    BEST_ORDER_BOOK_SIZE

/-- Source `SummaryOrderBook::asks` (`QUOTE = ASK = false`). -/
def SummaryOrderBook.asks (s : SummaryOrderBook) : List SummaryOrder :=
  s.quotes false

/-- Source `SummaryOrderBook::bids` (`QUOTE = BID = true`). -/
def SummaryOrderBook.bids (s : SummaryOrderBook) : List SummaryOrder :=
  s.quotes true

/-- Return type of `spread`: the distinguished f64 values NaN and the two
infinities, or an exact difference of two valid prices. -/
inductive SpreadResult where
  | nan
  | posInf
  | negInf
  | value (v : ℚ)
deriving DecidableEq, Repr

/-- Source `SummaryOrderBook::spread`: match on the first element of each
stream. -/
def SummaryOrderBook.spread (bids asks : List SummaryOrder) : SpreadResult :=
  match bids, asks with
  | [], [] => SpreadResult.nan
  | _ :: _, [] => SpreadResult.posInf
  | [], _ :: _ => SpreadResult.negInf
  | bid :: _, ask :: _ => SpreadResult.value (bid.order.price - ask.order.price)

/-- Source `SummaryOrderBook::reset`: replace the slot at the exchange
ordinal. -/
def SummaryOrderBook.reset (s : SummaryOrderBook) (exchange : Exchange)
    (bids asks : List Order) : SummaryOrderBook :=
  ⟨s.books.set exchange.toIdx (exchange, bids, asks)⟩

/-- Induction principle following the branches of the binary k-merge. -/
theorem kmergeInduction {α : Type} (pred : α → α → Bool)
    (motive : List α → List α → Prop)
    (c1 : ∀ r, motive [] r)
    (c2 : ∀ l, motive l [])
    (c3 : ∀ a as b bs, pred b a = true → motive (a :: as) bs → motive (a :: as) (b :: bs))
    (c4 : ∀ a as b bs, pred b a = false → motive as (b :: bs) → motive (a :: as) (b :: bs)) :
    ∀ l r, motive l r := by
  intro l
  induction l with
  | nil => exact c1
  | cons a as ihl =>
    intro r
    induction r with
    | nil => exact c2 _
    | cons b bs ihr =>
      cases hp : pred b a
      · exact c4 a as b bs hp (ihl (b :: bs))
      · exact c3 a as b bs hp ihr

theorem kmergeTwo_nil_left {α : Type} (pred : α → α → Bool) (r : List α) :
    kmergeTwo pred [] r = r := rfl

theorem kmergeTwo_nil_right {α : Type} (pred : α → α → Bool) (l : List α) :
    kmergeTwo pred l [] = l := by
  induction l with
  | nil => rfl
  | cons a as ih => simp [kmergeTwo, kmergeTwoCons, ih]

theorem kmergeTwo_cons {α : Type} (pred : α → α → Bool) (a b : α) (as bs : List α) :
    kmergeTwo pred (a :: as) (b :: bs) =
      if pred b a then b :: kmergeTwo pred (a :: as) bs
      else a :: kmergeTwo pred as (b :: bs) := rfl

theorem kmergeTwo_mem {α : Type} {pred : α → α → Bool} {x : α} :
    ∀ {l r : List α}, x ∈ kmergeTwo pred l r → x ∈ l ∨ x ∈ r := by
  intro l r
  induction l, r using kmergeInduction pred with
  | c1 r => rw [kmergeTwo_nil_left]; exact Or.inr
  | c2 l => rw [kmergeTwo_nil_right]; exact Or.inl
  | c3 a as b bs hp ih =>
    rw [kmergeTwo_cons, if_pos hp]
    intro h
    rcases List.mem_cons.mp h with rfl | h
    · exact Or.inr (List.mem_cons_self _ _)
    · rcases ih h with h | h
      · exact Or.inl h
      · exact Or.inr (List.mem_cons_of_mem _ h)
  | c4 a as b bs hp ih =>
    rw [kmergeTwo_cons, if_neg (by simp [hp])]
    intro h
    rcases List.mem_cons.mp h with rfl | h
    · exact Or.inl (List.mem_cons_self _ _)
    · rcases ih h with h | h
      · exact Or.inl (List.mem_cons_of_mem _ h)
      · exact Or.inr h

theorem kmergeTwo_sorted {α : Type} {pred : α → α → Bool}
    (hasym : ∀ a b, pred a b = true → pred b a = false)
    (htrans : ∀ a b c, pred b a = false → pred c b = false → pred c a = false) :
    ∀ {l r : List α}, l.Pairwise (fun a b => pred b a = false) →
      r.Pairwise (fun a b => pred b a = false) →
      (kmergeTwo pred l r).Pairwise (fun a b => pred b a = false) := by
  intro l r
  induction l, r using kmergeInduction pred with
  | c1 r => intro _ hr; rwa [kmergeTwo_nil_left]
  | c2 l => intro hl _; rwa [kmergeTwo_nil_right]
  | c3 a as b bs hp ih =>
    intro hl hr
    rcases List.pairwise_cons.mp hr with ⟨hr1, hr2⟩
    have hl1 := (List.pairwise_cons.mp hl).1
    rw [kmergeTwo_cons, if_pos hp]
    refine List.pairwise_cons.mpr ⟨?_, ih hl hr2⟩
    intro x hx
    rcases kmergeTwo_mem hx with hxl | hxr
    · rcases List.mem_cons.mp hxl with rfl | hxas
      · exact hasym _ _ hp
      · exact htrans b a x (hasym _ _ hp) (hl1 x hxas)
    · exact hr1 x hxr
  | c4 a as b bs hp ih =>
    intro hl hr
    rcases List.pairwise_cons.mp hl with ⟨hl1, hl2⟩
    rw [kmergeTwo_cons, if_neg (by simp [hp])]
    refine List.pairwise_cons.mpr ⟨?_, ih hl2 hr⟩
    intro x hx
    rcases kmergeTwo_mem hx with hxl | hxr
    · exact hl1 x hxl
    · rcases List.mem_cons.mp hxr with rfl | hxbs
      · exact hp
      · exact htrans a b x hp ((List.pairwise_cons.mp hr).1 x hxbs)

theorem kmergeBy_sorted {α : Type} {pred : α → α → Bool}
    (hasym : ∀ a b, pred a b = true → pred b a = false)
    (htrans : ∀ a b c, pred b a = false → pred c b = false → pred c a = false) :
    ∀ {ls : List (List α)}, (∀ l ∈ ls, l.Pairwise (fun a b => pred b a = false)) →
      (kmergeBy pred ls).Pairwise (fun a b => pred b a = false) := by
  intro ls
  induction ls with
  | nil => intro _; exact List.Pairwise.nil
  | cons l ls ih =>
    intro h
    exact kmergeTwo_sorted hasym htrans (h l (List.mem_cons_self _ _))
      (ih (fun x hx => h x (List.mem_cons_of_mem _ hx)))

theorem summaryLess_eq_false_iff {Q : Bool} {a b : SummaryOrder} :
    summaryLess Q b a = false ↔
      (orderComparator Q a.order b.order = Ordering.lt ∨
        (a.order.price = b.order.price ∧ b.order.amount ≤ a.order.amount)) := by
  unfold summaryLess
  rcases hc : orderComparator Q b.order a.order with _ | _ | _
  · show true = false ↔ _
    have hgt : orderComparator Q a.order b.order = Ordering.gt :=
      orderComparator_lt_iff_gt.mp hc
    have hne : b.order.price ≠ a.order.price := orderLT_price_ne hc
    constructor
    · intro h; exact absurd h (by simp)
    · rintro (h | ⟨h1, _⟩)
      · rw [hgt] at h; exact absurd h (by decide)
      · exact absurd h1.symm hne
  · show decide (a.order.amount < b.order.amount) = false ↔ _
    have hpe : b.order.price = a.order.price := orderComparator_eq_eq.mp hc
    have heq2 : orderComparator Q a.order b.order = Ordering.eq :=
      orderComparator_eq_eq.mpr hpe.symm
    constructor
    · intro h
      exact Or.inr ⟨hpe.symm, not_lt.mp (of_decide_eq_false h)⟩
    · rintro (h | ⟨_, h2⟩)
      · rw [heq2] at h; exact absurd h (by decide)
      · exact decide_eq_false (not_lt.mpr h2)
  · show false = false ↔ _
    have hlt : orderComparator Q a.order b.order = Ordering.lt :=
      orderComparator_lt_iff_gt.mpr hc
    exact ⟨fun _ => Or.inl hlt, fun _ => rfl⟩

theorem summaryLess_asym (Q : Bool) : ∀ a b,
    summaryLess Q a b = true → summaryLess Q b a = false := by
  intro a b h
  apply summaryLess_eq_false_iff.mpr
  unfold summaryLess at h
  rcases hc : orderComparator Q a.order b.order with _ | _ | _ <;> rw [hc] at h
  · exact Or.inl rfl
  · exact Or.inr ⟨orderComparator_eq_eq.mp hc, le_of_lt (of_decide_eq_true h)⟩
  · exact Bool.noConfusion h

theorem summaryLess_trans (Q : Bool) : ∀ a b c,
    summaryLess Q b a = false → summaryLess Q c b = false →
      summaryLess Q c a = false := by
  intro a b c hab hbc
  rcases summaryLess_eq_false_iff.mp hab with h1 | ⟨h1, h1'⟩ <;>
    rcases summaryLess_eq_false_iff.mp hbc with h2 | ⟨h2, h2'⟩ <;>
    apply summaryLess_eq_false_iff.mpr
  · exact Or.inl (orderLT_trans h1 h2)
  · refine Or.inl ?_
    rw [← orderComparator_price_eq rfl h2]
    exact h1
  · refine Or.inl ?_
    rw [orderComparator_price_eq h1 rfl]
    exact h2
  · exact Or.inr ⟨h1.trans h2, le_trans h2' h1'⟩

/-- Validity of a summary state: every stored per-exchange book satisfies
the Book invariants of its side. -/
def ValidSummary (s : SummaryOrderBook) : Prop :=
  ∀ eb ∈ s.books, ValidBook true BEST_ORDER_BOOK_SIZE eb.2.1 ∧
    ValidBook false BEST_ORDER_BOOK_SIZE eb.2.2

instance (s : SummaryOrderBook) : Decidable (ValidSummary s) :=
  List.decidableBAll _ _

/-- C4: on any summary whose stored books are valid, `asks()` and `bids()`
each return at most N = 10 summary orders, sorted by price in the side
order, with the larger amount first on equal prices. -/
theorem summary_streams_spec (s : SummaryOrderBook) (hs : ValidSummary s) :
    (s.asks.length ≤ BEST_ORDER_BOOK_SIZE ∧
      s.asks.Pairwise (fun a b => a.order.price ≤ b.order.price ∧
        (a.order.price = b.order.price → b.order.amount ≤ a.order.amount))) ∧
    (s.bids.length ≤ BEST_ORDER_BOOK_SIZE ∧
      s.bids.Pairwise (fun a b => b.order.price ≤ a.order.price ∧
        (a.order.price = b.order.price → b.order.amount ≤ a.order.amount))) := by
  have hmain : ∀ Q : Bool,
      (s.quotes Q).Pairwise (fun a b => summaryLess Q b a = false) := by
    intro Q
    unfold SummaryOrderBook.quotes
    apply List.Pairwise.sublist (List.take_sublist _ _)
    apply kmergeBy_sorted (summaryLess_asym Q) (summaryLess_trans Q)
    intro l hl
    rcases List.mem_map.mp hl with ⟨eb, hmem, rfl⟩
    rw [List.pairwise_map]
    have hvb : ValidDiff Q (if Q then eb.2.1 else eb.2.2) := by
      cases Q
      · exact ((hs eb hmem).2).1
      · exact ((hs eb hmem).1).1
    refine List.Pairwise.imp ?_ (show List.Pairwise (OrderLT Q) _ from hvb)
    intro a b h
    exact summaryLess_eq_false_iff.mpr (Or.inl h)
  constructor
  · refine ⟨List.length_take_le _ _, ?_⟩
    refine (hmain false).imp ?_
    intro a b h
    rcases summaryLess_eq_false_iff.mp h with h | ⟨h1, h2⟩
    · rw [orderComparator_false, pcmp_eq_lt] at h
      exact ⟨le_of_lt h, fun hpe => absurd hpe (ne_of_lt h)⟩
    · exact ⟨le_of_eq h1, fun _ => h2⟩
  · refine ⟨List.length_take_le _ _, ?_⟩
    refine (hmain true).imp ?_
    intro a b h
    rcases summaryLess_eq_false_iff.mp h with h | ⟨h1, h2⟩
    · rw [orderComparator_true, pcmp_eq_lt] at h
      exact ⟨le_of_lt h, fun hpe => absurd hpe (ne_of_gt h)⟩
    · exact ⟨le_of_eq h1.symm, fun _ => h2⟩

/-- Witness for C4 at a concrete summary with both exchanges populated. -/
theorem summary_streams_spec_witness :
    ValidSummary ((SummaryOrderBook.default.reset Exchange.binance
        [⟨2, 1⟩, ⟨1, 1⟩] [⟨3, 1⟩, ⟨4, 1⟩]).reset Exchange.bitstamp
        [⟨2, 5⟩] [⟨3, 7⟩]) ∧
    ((SummaryOrderBook.default.reset Exchange.binance
        [⟨2, 1⟩, ⟨1, 1⟩] [⟨3, 1⟩, ⟨4, 1⟩]).reset Exchange.bitstamp
        [⟨2, 5⟩] [⟨3, 7⟩]).asks.Pairwise (fun a b => a.order.price ≤ b.order.price ∧
          (a.order.price = b.order.price → b.order.amount ≤ a.order.amount)) ∧
    ((SummaryOrderBook.default.reset Exchange.binance
        [⟨2, 1⟩, ⟨1, 1⟩] [⟨3, 1⟩, ⟨4, 1⟩]).reset Exchange.bitstamp
        [⟨2, 5⟩] [⟨3, 7⟩]).bids.length ≤ BEST_ORDER_BOOK_SIZE :=
  ⟨by decide,
    (summary_streams_spec ((SummaryOrderBook.default.reset Exchange.binance
      [⟨2, 1⟩, ⟨1, 1⟩] [⟨3, 1⟩, ⟨4, 1⟩]).reset Exchange.bitstamp
      [⟨2, 5⟩] [⟨3, 7⟩]) (by decide)).1.2,
    (summary_streams_spec ((SummaryOrderBook.default.reset Exchange.binance
      [⟨2, 1⟩, ⟨1, 1⟩] [⟨3, 1⟩, ⟨4, 1⟩]).reset Exchange.bitstamp
      [⟨2, 5⟩] [⟨3, 7⟩]) (by decide)).2.1⟩

/-- C5: `spread(bids, asks)` is NaN when both streams are empty, plus
infinity when only the asks stream is empty, minus infinity when only the
bids stream is empty, and otherwise the difference of the first bid price
and the first ask price (possibly negative). -/
theorem spread_spec (bids asks : List SummaryOrder) :
    (bids = [] → asks = [] → SummaryOrderBook.spread bids asks = SpreadResult.nan) ∧
    (bids ≠ [] → asks = [] → SummaryOrderBook.spread bids asks = SpreadResult.posInf) ∧
    (bids = [] → asks ≠ [] → SummaryOrderBook.spread bids asks = SpreadResult.negInf) ∧
    (∀ b bs a as, bids = b :: bs → asks = a :: as →
      SummaryOrderBook.spread bids asks =
        SpreadResult.value (b.order.price - a.order.price)) := by
  refine ⟨?_, ?_, ?_, ?_⟩
  · rintro rfl rfl; rfl
  · intro hb ha
    subst ha
    cases bids with
    | nil => exact absurd rfl hb
    | cons b bs => rfl
  · intro hb ha
    subst hb
    cases asks with
    | nil => exact absurd rfl ha
    | cons a as => rfl
  · rintro b bs a as rfl rfl; rfl

/-- Witness for C5: the crossed-market scenario (best bid 2.3, best ask 2.1,
scaled by ten) yields a positive spread value. -/
theorem spread_spec_witness :
    SummaryOrderBook.spread
        [⟨Exchange.bitstamp, ⟨23, 1⟩⟩] [⟨Exchange.binance, ⟨21, 11⟩⟩] =
      SpreadResult.value (23 - 21) :=
  (spread_spec [⟨Exchange.bitstamp, ⟨23, 1⟩⟩] [⟨Exchange.binance, ⟨21, 11⟩⟩]).2.2.2
    ⟨Exchange.bitstamp, ⟨23, 1⟩⟩ [] ⟨Exchange.binance, ⟨21, 11⟩⟩ [] rfl rfl

/-- C9: `reset(E, bids, asks)` stores exactly `(E, bids, asks)` in the slot
at the ordinal of `E`, leaves every other slot unchanged, and preserves the
number of slots; in this embedding `reset` is the only state-producing
operation (`quotes`, `asks`, `bids` and `spread` only read). -/
theorem reset_spec (s : SummaryOrderBook) (e : Exchange) (bids asks : List Order)
    (h : e.toIdx < s.books.length) :
    (s.reset e bids asks).books[e.toIdx]? = some (e, bids, asks) ∧
    (∀ j, j ≠ e.toIdx → (s.reset e bids asks).books[j]? = s.books[j]?) ∧
    (s.reset e bids asks).books.length = s.books.length := by
  refine ⟨?_, ?_, ?_⟩
  · exact List.getElem?_set_self h
  · intro j hj
    exact List.getElem?_set_ne (fun hc => hj hc.symm)
  · exact List.length_set _ _ _

/-- Witness for C9 on the default summary. -/
theorem reset_spec_witness :
    Exchange.binance.toIdx < SummaryOrderBook.default.books.length ∧
    (SummaryOrderBook.default.reset Exchange.binance [⟨2, 1⟩] [⟨3, 1⟩]).books[
        Exchange.binance.toIdx]? = some (Exchange.binance, [⟨2, 1⟩], [⟨3, 1⟩]) ∧
    (SummaryOrderBook.default.reset Exchange.binance [⟨2, 1⟩] [⟨3, 1⟩]).books[
        Exchange.bitstamp.toIdx]? = SummaryOrderBook.default.books[Exchange.bitstamp.toIdx]? :=
  ⟨by decide,
    (reset_spec SummaryOrderBook.default Exchange.binance [⟨2, 1⟩] [⟨3, 1⟩] (by decide)).1,
    (reset_spec SummaryOrderBook.default Exchange.binance [⟨2, 1⟩] [⟨3, 1⟩] (by decide)).2.1
      Exchange.bitstamp.toIdx (by decide)⟩

/-- Rust `std::num::FpCategory`. -/
inductive FpCategory where
  | nan
  | infinite
  | subnormal
  | zero
  | normal
deriving DecidableEq, Repr

/-- Shallow model of an f64 as its IEEE-754 classification: the sign bit in
every class, and for subnormal and normal values the (positive) magnitude,
embedded as a rational.  `wf` states the magnitude invariant that every real
f64 satisfies. -/
inductive F64 where
  | nan (neg : Bool)
  | inf (neg : Bool)
  | zero (neg : Bool)
  | subnormal (neg : Bool) (mag : ℚ)
  | normal (neg : Bool) (mag : ℚ)
deriving DecidableEq, Repr

/-- Wellformedness: true f64 subnormal and normal values have positive
magnitude. -/
def F64.wf : F64 → Prop
  | .subnormal _ m => 0 < m
  | .normal _ m => 0 < m
  | _ => True

instance (x : F64) : Decidable x.wf :=
  match x with
  | .nan _ => inferInstanceAs (Decidable True)
  | .inf _ => inferInstanceAs (Decidable True)
  | .zero _ => inferInstanceAs (Decidable True)
  | .subnormal _ m => inferInstanceAs (Decidable (0 < m))
  | .normal _ m => inferInstanceAs (Decidable (0 < m))

/-- Rust `f64::is_normal`. -/
def F64.isNormal : F64 → Bool
  | .normal _ _ => true
  | _ => false

/-- Rust `f64::is_sign_positive`: the sign bit is clear. -/
def F64.isSignPositive : F64 → Bool
  | .nan n => !n
  | .inf n => !n
  | .zero n => !n
  | .subnormal n _ => !n
  | .normal n _ => !n

/-- Rust `f64::classify`. -/
def F64.classify : F64 → FpCategory
  | .nan _ => FpCategory.nan
  | .inf _ => FpCategory.infinite
  | .zero _ => FpCategory.zero
  | .subnormal _ _ => FpCategory.subnormal
  | .normal _ _ => FpCategory.normal

/-- IEEE comparison `value < 0.0` (false on NaN; both zeros are not
negative). -/
def F64.ltZero : F64 → Bool
  | .nan _ => false
  | .inf n => n
  | .zero _ => false
  | .subnormal n m => n && decide (0 < m)
  | .normal n m => n && decide (0 < m)

/-- IEEE comparison `value == 0.0` (false on NaN; true on both zeros). -/
def F64.eqZero : F64 → Bool
  | .nan _ => false
  | .inf _ => false
  | .zero _ => true
  | .subnormal _ m => decide (m = 0)
  | .normal _ m => decide (m = 0)

/-- Real value carried by a finite f64 (`none` for NaN and infinities);
both zeros have value 0. -/
def F64.realVal : F64 → Option ℚ
  | .nan _ => none
  | .inf _ => none
  | .zero _ => some 0
  | .subnormal n m => some (if n then -m else m)
  | .normal n m => some (if n then -m else m)

/-- Source `Price::new`: accept exactly normal, sign-positive values; the
rejected value is returned in the error. -/
def Price.new (value : F64) : Except F64 F64 :=
  if value.isNormal && value.isSignPositive then Except.ok value
  else Except.error value

/-- Source `Amount::new`: reject NaN, infinite and subnormal classes, then
reject `value < 0.0`; everything else (both zeros and positive normals) is
accepted. -/
def Amount.new (value : F64) : Except F64 F64 :=
  match value.classify with
  | FpCategory.nan => Except.error value
  | FpCategory.infinite => Except.error value
  | FpCategory.subnormal => Except.error value
  | _ => if value.ltZero then Except.error value else Except.ok value

/-- C6: for every wellformed f64 `x`, `Price::new(x)` succeeds exactly when
`x` is normal and its value is strictly positive; NaN, infinities, zeros,
subnormals and negatives are rejected, and the rejection carries `x` back. -/
theorem price_new_spec (x : F64) (hwf : x.wf) :
    ((Price.new x).isOk = true ↔
      (x.isNormal = true ∧ ∃ q, x.realVal = some q ∧ 0 < q)) ∧
    ((Price.new x).isOk = false → Price.new x = Except.error x) := by
  cases x with
  | nan n => simp [Price.new, F64.isNormal, F64.isSignPositive, F64.realVal,
      Except.isOk, Except.toBool]
  | inf n => simp [Price.new, F64.isNormal, F64.isSignPositive, F64.realVal,
      Except.isOk, Except.toBool]
  | zero n => simp [Price.new, F64.isNormal, F64.isSignPositive, F64.realVal,
      Except.isOk, Except.toBool]
  | subnormal n m => simp [Price.new, F64.isNormal, F64.isSignPositive, F64.realVal,
      Except.isOk, Except.toBool]
  | normal n m =>
    have hm : 0 < m := hwf
    cases n with
    | false =>
      simp [Price.new, F64.isNormal, F64.isSignPositive, F64.realVal,
        Except.isOk, Except.toBool, hm]
    | true =>
      simp [Price.new, F64.isNormal, F64.isSignPositive, F64.realVal,
        Except.isOk, Except.toBool]
      exact le_of_lt hm

/-- Witness for C6 at the wellformed positive normal 1 and its acceptance. -/
theorem price_new_spec_witness :
    (F64.normal false 1).wf ∧
      ((Price.new (F64.normal false 1)).isOk = true ↔
        ((F64.normal false 1).isNormal = true ∧
          ∃ q, (F64.normal false 1).realVal = some q ∧ 0 < q)) :=
  ⟨by decide, (price_new_spec (F64.normal false 1) (by decide)).1⟩

/-- C7 counterexample: negative zero is accepted by `Amount::new` although
it is neither a normal value nor positive zero, so "succeeds iff
non-negative, finite, and (normal or +0)" fails at `x = -0.0`. -/
theorem amount_new_counterexample :
    (Amount.new (F64.zero true)).isOk = true ∧
      (F64.zero true).isNormal = false ∧
      F64.zero true ≠ F64.zero false ∧
      (F64.zero true).classify = FpCategory.zero := by
  refine ⟨rfl, rfl, by decide, rfl⟩

/-- C7 (amended): for every wellformed f64 `x`, `Amount::new(x)` succeeds
exactly when `x` is finite with a non-negative value and is either normal
or a zero of either sign; NaN, infinities, subnormals and negative values
are rejected, carrying `x` back. -/
theorem amount_new_spec (x : F64) (hwf : x.wf) :
    ((Amount.new x).isOk = true ↔
      ((∃ q, x.realVal = some q ∧ 0 ≤ q) ∧
        (x.isNormal = true ∨ x.classify = FpCategory.zero))) ∧
    ((Amount.new x).isOk = false → Amount.new x = Except.error x) := by
  cases x with
  | nan n => simp [Amount.new, F64.classify, F64.realVal, Except.isOk, Except.toBool]
  | inf n => simp [Amount.new, F64.classify, F64.realVal, Except.isOk, Except.toBool]
  | zero n => simp [Amount.new, F64.classify, F64.ltZero, F64.realVal,
      Except.isOk, Except.toBool]
  | subnormal n m =>
    simp [Amount.new, F64.classify, F64.isNormal, F64.realVal,
      Except.isOk, Except.toBool]
  | normal n m =>
    have hm : 0 < m := hwf
    cases n with
    | false =>
      simp [Amount.new, F64.classify, F64.isNormal, F64.ltZero, F64.realVal,
        Except.isOk, Except.toBool, hm, le_of_lt hm]
    | true =>
      simp [Amount.new, F64.classify, F64.isNormal, F64.ltZero, F64.realVal,
        Except.isOk, Except.toBool, hm]

/-- Witness for the amended C7 at negative zero, which is accepted. -/
theorem amount_new_spec_witness :
    (F64.zero true).wf ∧
      ((Amount.new (F64.zero true)).isOk = true ↔
        ((∃ q, (F64.zero true).realVal = some q ∧ 0 ≤ q) ∧
          ((F64.zero true).isNormal = true ∨
            (F64.zero true).classify = FpCategory.zero))) :=
  ⟨by decide, (amount_new_spec (F64.zero true) (by decide)).1⟩

/-- C10: `Amount::new(-0.0)` succeeds (negative zero is classified `Zero`,
not `Subnormal`, and passes the `value < 0.0` test), an order with amount
`-0.0` satisfies `is_empty` (the `== 0.0` comparison holds for both zeros),
both zeros carry the same real value 0, and in the rational embedding an
update whose diff carries that amount deletes the level exactly like
amount `+0`. -/
theorem amount_neg_zero_behaviour :
    Amount.new (F64.zero true) = Except.ok (F64.zero true) ∧
    (F64.zero true).classify = FpCategory.zero ∧
    (F64.zero true).ltZero = false ∧
    (F64.zero true).eqZero = true ∧
    (F64.zero false).eqZero = true ∧
    (F64.zero true).realVal = (F64.zero false).realVal ∧
    Order.isEmpty ⟨5, ((F64.zero true).realVal).getD 1⟩ = true ∧
    OrderBook.update false 10 [⟨5, 3⟩] [⟨5, ((F64.zero true).realVal).getD 1⟩] = [] ∧
    OrderBook.update false 10 [⟨5, 3⟩] [⟨5, ((F64.zero false).realVal).getD 1⟩] = [] := by
  refine ⟨rfl, rfl, rfl, rfl, rfl, rfl, by decide, by decide, by decide⟩
